import Mathlib

set_option maxHeartbeats 1000000
set_option maxRecDepth 10000
set_option autoImplicit false

/-!
Shallow embedding of the librfm RepRapFirmware file-manager client
(current sources: the unnamed Go file with the context-based
RRFFileManager, together with v2/filelist.go).  Network transport and
JSON decoding are external collaborators: a "server" is modelled as a
function from the request parameters to the already-decoded response
(`none` standing for a transport or decode failure), and each operation
is instrumented with the list of requests it issues so that claims about
which calls happen, and in which order, are statable.
-/

namespace Librfm

/-- Entry type marker for directories (constant typeDirectory = "d"). -/
def typeDirectory : String := "d"

/-- Entry type marker for plain files (constant typeFile = "f"). -/
def typeFile : String := "f"

/-- One entry of an rr_filelist response page (struct File in
v2/filelist.go).  The timestamp is kept as its raw protocol string; it
is never inspected by any algorithm modelled here. -/
structure File where
  type : String
  name : String
  size : Nat
  date : String
deriving DecidableEq

/-- File.IsDir from v2/filelist.go: the Type field equals "d". -/
def File.isDir (f : File) : Bool := f.type == typeDirectory

/-- File.IsFile from v2/filelist.go: the Type field equals "f". -/
def File.isFile (f : File) : Bool := f.type == typeFile

/-- Computable rendering of the strict lexicographic string order Go
uses for `name1 < name2` (byte-wise comparison, which agrees with the
character-wise comparison on valid UTF-8).  It is stated on the
character list so that the kernel can evaluate it on concrete names. -/
def strLtB (a b : String) : Bool := decide (a.toList < b.toList)

theorem strLtB_iff {a b : String} : strLtB a b = true ↔ a < b := by
  rw [strLtB, decide_eq_true_eq, String.lt_iff_toList_lt]

theorem strLtB_false_iff {a b : String} : strLtB a b = false ↔ ¬ a < b := by
  rw [← strLtB_iff]
  simp

/-- The less function handed to sort.SliceStable in getFullFilelist:
entries of equal Type compare by ascending Name, entries of different
Type compare directories first. -/
def fileLess (a b : File) : Bool :=
  if a.type = b.type then strLtB a.name b.name else a.type == typeDirectory

/-- Stable insertion: the new element is placed before the first element
that is not strictly less than it, so an element inserted from an
earlier input position stays before every element it ties with. -/
def insertFile (x : File) : List File → List File
  | [] => [x]
  | y :: ys => if fileLess y x then y :: insertFile x ys else x :: y :: ys

/-- Model of sort.SliceStable with fileLess as insertion sort.  Under
the protocol's entry kinds fileLess is a strict weak order, and a stable
sort's output (sorted, with tied elements in arrival order) is unique,
so this agrees with Go's sort.SliceStable. -/
def sortFiles : List File → List File
  | [] => []
  | x :: xs => insertFile x (sortFiles xs)

/-- An entry kind is one of the two protocol kinds. -/
def dfKind (f : File) : Prop := f.type = typeDirectory ∨ f.type = typeFile

instance (f : File) : Decidable (dfKind f) := by
  unfold dfKind; infer_instance

theorem fileLess_eval (a b : File) :
    fileLess a b = (if a.type = b.type then strLtB a.name b.name
      else a.type == typeDirectory) := rfl

/-- fileLess only looks at the type and name fields. -/
theorem fileLess_congr {a a' b b' : File} (h₁ : a.type = a'.type)
    (h₂ : a.name = a'.name) (h₃ : b.type = b'.type) (h₄ : b.name = b'.name) :
    fileLess a b = fileLess a' b' := by
  simp [fileLess, h₁, h₂, h₃, h₄]

theorem fileLess_asymm {a b : File} (h : fileLess a b = true) :
    fileLess b a = false := by
  unfold fileLess at h ⊢
  by_cases ht : a.type = b.type
  · rw [if_pos ht] at h
    rw [if_pos ht.symm]
    rw [strLtB_iff] at h
    rw [strLtB_false_iff]
    exact lt_asymm h
  · rw [if_neg ht] at h
    rw [if_neg fun hc => ht hc.symm]
    simp only [beq_iff_eq] at h
    simp only [beq_eq_false_iff_ne, ne_eq]
    intro hb
    exact ht (h.trans hb.symm)

/-- Negative transitivity of fileLess on the two protocol kinds. -/
theorem fileLess_neg_trans {a b c : File} (ha : dfKind a) (hb : dfKind b)
    (hc : dfKind c) (h₁ : fileLess c b = false) (h₂ : fileLess b a = false) :
    fileLess c a = false := by
  unfold dfKind at ha hb hc
  rcases ha with ha | ha <;> rcases hb with hb | hb <;> rcases hc with hc | hc <;>
    simp_all [fileLess, typeDirectory, typeFile, strLtB_false_iff, not_lt] <;>
    try exact le_trans h₂ h₁

theorem insertFile_eq_nil (x : File) : insertFile x [] = [x] := rfl

theorem insertFile_cons (x y : File) (ys : List File) :
    insertFile x (y :: ys) =
      if fileLess y x then y :: insertFile x ys else x :: y :: ys := rfl

/-- Elements of an insertion. -/
theorem mem_insertFile {z x : File} {l : List File} :
    z ∈ insertFile x l ↔ z = x ∨ z ∈ l := by
  induction l with
  | nil => simp [insertFile]
  | cons y ys ih =>
    rw [insertFile_cons]
    by_cases h : fileLess y x = true
    · simp only [if_pos h, List.mem_cons, ih]
      tauto
    · simp only [if_neg h, List.mem_cons]

/-- The relation in which sortFiles output is pairwise sorted:
the later element is never strictly less than the earlier one. -/
def fileGE (a b : File) : Prop := fileLess b a = false

theorem insertFile_pairwise {x : File} {l : List File}
    (hx : dfKind x) (hl : ∀ y ∈ l, dfKind y)
    (h : l.Pairwise fileGE) : (insertFile x l).Pairwise fileGE := by
  induction l with
  | nil => simp [insertFile]
  | cons y ys ih =>
    rw [insertFile_cons]
    rcases List.pairwise_cons.mp h with ⟨hy, hys⟩
    by_cases hyx : fileLess y x = true
    · rw [if_pos hyx]
      refine List.pairwise_cons.mpr ⟨?_, ih (fun z hz => hl z (List.mem_cons_of_mem y hz)) hys⟩
      intro z hz
      rcases mem_insertFile.mp hz with hzx | hzy
      · subst hzx
        exact fileLess_asymm hyx
      · exact hy z hzy
    · rw [if_neg hyx]
      have hyx' : fileLess y x = false := by simpa using hyx
      refine List.pairwise_cons.mpr ⟨?_, h⟩
      intro z hz
      rcases List.mem_cons.mp hz with hzy | hzys
      · subst hzy
        exact hyx'
      · exact fileLess_neg_trans hx (hl y (List.mem_cons_self y ys))
          (hl z (List.mem_cons_of_mem y hzys)) (hy z hzys) hyx'

theorem mem_sortFiles {z : File} {l : List File} :
    z ∈ sortFiles l ↔ z ∈ l := by
  induction l with
  | nil => simp [sortFiles]
  | cons x xs ih =>
    show z ∈ insertFile x (sortFiles xs) ↔ _
    rw [mem_insertFile, ih]
    simp

/-- The output of the modelled sort.SliceStable is sorted, provided all
entries carry one of the two protocol kinds. -/
theorem sortFiles_pairwise {l : List File} (hl : ∀ y ∈ l, dfKind y) :
    (sortFiles l).Pairwise fileGE := by
  induction l with
  | nil => simp [sortFiles]
  | cons x xs ih =>
    show (insertFile x (sortFiles xs)).Pairwise fileGE
    exact insertFile_pairwise (hl x (List.mem_cons_self x xs))
      (fun y hy => hl y (List.mem_cons_of_mem x (mem_sortFiles.mp hy)))
      (ih (fun y hy => hl y (List.mem_cons_of_mem x hy)))

/-- Sorting an already sorted list changes nothing. -/
theorem sortFiles_of_pairwise {l : List File} (h : l.Pairwise fileGE) :
    sortFiles l = l := by
  induction l with
  | nil => rfl
  | cons x xs ih =>
    rcases List.pairwise_cons.mp h with ⟨hx, hxs⟩
    show insertFile x (sortFiles xs) = x :: xs
    rw [ih hxs]
    cases xs with
    | nil => rfl
    | cons y ys =>
      have hyx : fileLess y x = false := hx y (List.mem_cons_self y ys)
      rw [insertFile_cons, if_neg (by simp [hyx])]

/-- Entries agreeing with a fixed type and name: one tie class of the
sort comparison (same kind, same name). -/
def sameKey (t n : String) (f : File) : Bool := f.type == t && f.name == n

theorem sameKey_eq_true {t n : String} {f : File} :
    sameKey t n f = true ↔ f.type = t ∧ f.name = n := by
  simp [sameKey]

/-- Two entries of one tie class never compare strictly less. -/
theorem fileLess_self_key {t n : String} {x y : File}
    (hx : sameKey t n x = true) (hy : sameKey t n y = true) :
    fileLess y x = false := by
  rcases sameKey_eq_true.mp hx with ⟨hxt, hxn⟩
  rcases sameKey_eq_true.mp hy with ⟨hyt, hyn⟩
  unfold fileLess
  rw [if_pos (hyt.trans hxt.symm)]
  simp [hyn, hxn, strLtB_false_iff]

theorem filter_insertFile (t n : String) (x : File) (l : List File) :
    (insertFile x l).filter (sameKey t n) =
      if sameKey t n x then x :: l.filter (sameKey t n) else l.filter (sameKey t n) := by
  induction l with
  | nil =>
    rw [insertFile_eq_nil]
    by_cases hx : sameKey t n x = true <;> simp [hx]
  | cons y ys ih =>
    rw [insertFile_cons]
    by_cases hyx : fileLess y x = true
    · rw [if_pos hyx]
      by_cases hx : sameKey t n x = true
      · have hy : sameKey t n y = false := by
          by_contra hy
          have hy' : sameKey t n y = true := by simpa using hy
          rw [fileLess_self_key hx hy'] at hyx
          exact Bool.false_ne_true hyx
        simp only [List.filter_cons, hy, hx, if_pos, ih]
        simp
      · have hx' : sameKey t n x = false := by simpa using hx
        simp only [List.filter_cons, ih, hx']
        by_cases hy : sameKey t n y = true <;> simp [hy]
    · rw [if_neg hyx]
      by_cases hx : sameKey t n x = true <;> simp [List.filter_cons, hx]

/-- Stability of the modelled sort: each tie class (same kind and same
name) appears in the output exactly in its arrival order. -/
theorem filter_sortFiles (t n : String) (l : List File) :
    (sortFiles l).filter (sameKey t n) = l.filter (sameKey t n) := by
  induction l with
  | nil => rfl
  | cons x xs ih =>
    show (insertFile x (sortFiles xs)).filter (sameKey t n) = _
    rw [filter_insertFile, ih, List.filter_cons]

/-- Sorting an already sorted suffix first does not change the result of
the final sort: this is how the per-page sorts of the pagination
recursion collapse into one sort of the concatenated pages. -/
theorem sortFiles_append_sortFiles {a b : List File}
    (hb : ∀ f ∈ b, dfKind f) :
    sortFiles (a ++ sortFiles b) = sortFiles (a ++ b) := by
  induction a with
  | nil =>
    simp only [List.nil_append]
    exact sortFiles_of_pairwise (sortFiles_pairwise hb)
  | cons x xs ih =>
    show insertFile x (sortFiles (xs ++ sortFiles b)) = insertFile x (sortFiles (xs ++ b))
    rw [ih]

/-- One decoded rr_filelist response page: the exported fields of the
Filelist JSON shape (Dir, Files, Next, Err) that json.Unmarshal
populates. -/
structure Page where
  dir : String
  files : List File
  next : Nat
  err : Nat
deriving DecidableEq

/-- Errors surfaced by the listing engine.  transport stands for a
failed GET or a JSON decode failure (both are propagated verbatim by
the Go code); fuelExhausted is an artefact of making the Go recursion,
which has no termination guarantee of its own, well-founded. -/
inductive LErr where
  | transport
  | directoryNotFound
  | driveNotMounted
  | fuelExhausted
deriving DecidableEq

/-- The remote rr_filelist endpoint for one fixed directory: a function
from the "first" query parameter to the decoded page, none standing for
a transport or decode failure. -/
abbrev Server := Nat → Option Page

/-- Filelist (v2/filelist.go): one directory listing.  Subdirs is
populated only by the recursive Filelist call.  The lazily built index
is modelled by the buildIndex function further down instead of a
mutable field. -/
inductive Filelist where
  | mk (dir : String) (files : List File) (next : Nat) (err : Nat)
      (subdirs : List Filelist)

def Filelist.dir : Filelist → String
  | .mk d _ _ _ _ => d

def Filelist.files : Filelist → List File
  | .mk _ fs _ _ _ => fs

def Filelist.next : Filelist → Nat
  | .mk _ _ n _ _ => n

def Filelist.err : Filelist → Nat
  | .mk _ _ _ e _ => e

def Filelist.subdirs : Filelist → List Filelist
  | .mk _ _ _ _ s => s

/-- getFullFilelist of the unnamed source file (lines 229-272): issue
the GET carrying dir and first, decode, map error codes 2 and 1 to the
named errors, recursively drain the remaining pages whenever Next is
nonzero appending their files, sort with sort.SliceStable, and reset
Subdirs to the empty list.  The first component collects the "first"
parameter of every issued GET in order; fuel bounds the recursion
depth (the Go original recurses unboundedly). -/
def getFullFilelist (server : Server) : Nat → Nat → List Nat × Except LErr Filelist
  | 0, _ => ([], .error .fuelExhausted)
  | fuel+1, first =>
    match server first with
    | none => ([first], .error .transport)
    | some p =>
      if p.err = 2 then ([first], .error .directoryNotFound)
      else if p.err = 1 then ([first], .error .driveNotMounted)
      else if p.next > 0 then
        match getFullFilelist server fuel p.next with
        | (log, .error e) => (first :: log, .error e)
        | (log, .ok more) =>
          (first :: log,
            .ok (.mk p.dir (sortFiles (p.files ++ more.files)) p.next p.err []))
      else ([first], .ok (.mk p.dir (sortFiles p.files) p.next p.err []))

/-- The sequence of pages a server holds for one directory, starting at
a given offset: each page is the decoded response at the current offset,
carries no recognized error code, and hands the offset of its successor
in its next field; the chain ends at the first page whose next offset is
zero. -/
inductive PageChain (server : Server) : Nat → List Page → Prop where
  | last (first : Nat) (p : Page) : server first = some p → p.err ≠ 2 →
      p.err ≠ 1 → p.next = 0 → PageChain server first [p]
  | more (first : Nat) (p : Page) (ps : List Page) : server first = some p →
      p.err ≠ 2 → p.err ≠ 1 → p.next ≠ 0 → PageChain server p.next ps →
      PageChain server first (p :: ps)

theorem PageChain.ne_nil {server : Server} {first : Nat} {ps : List Page}
    (h : PageChain server first ps) : ps ≠ [] := by
  cases h <;> simp

/-- Every page of a chain is a response of the server. -/
theorem PageChain.mem_server {server : Server} {first : Nat} {ps : List Page}
    (h : PageChain server first ps) :
    ∀ q ∈ ps, ∃ o, server o = some q := by
  induction h with
  | last first p hs _ _ _ =>
    intro q hq
    rw [List.mem_singleton] at hq
    exact ⟨first, hq ▸ hs⟩
  | more first p ps hs _ _ _ _ ih =>
    intro q hq
    rcases List.mem_cons.mp hq with hq | hq
    · exact ⟨first, hq ▸ hs⟩
    · exact ih q hq

/-- A server holds at most one chain from a given offset. -/
theorem PageChain.unique {server : Server} {first : Nat} {ps qs : List Page}
    (h₁ : PageChain server first ps) (h₂ : PageChain server first qs) :
    ps = qs := by
  induction h₁ generalizing qs with
  | last first p hs _ _ hz =>
    cases h₂ with
    | last _ q hs' _ _ _ =>
      rw [hs] at hs'
      cases hs'
      rfl
    | more _ q qs hs' _ _ hnz _ =>
      rw [hs] at hs'
      cases hs'
      exact absurd hz hnz
  | more first p ps hs _ _ hnz _ ih =>
    cases h₂ with
    | last _ q hs' _ _ hz =>
      rw [hs] at hs'
      cases hs'
      exact absurd hz hnz
    | more _ q qs hs' _ _ _ hc =>
      rw [hs] at hs'
      cases hs'
      rw [ih hc]

/-- Central run lemma for the pagination engine: a successful run
traverses exactly the server's page chain from the start offset, issues
one GET per page whose first parameter is the previous page's next
offset, and returns the stable sort of the concatenation of all pages'
files. -/
theorem getFullFilelist_ok {server : Server}
    (hdf : ∀ first p, server first = some p → ∀ f ∈ p.files, dfKind f) :
    ∀ (fuel first : Nat) (log : List Nat) (fl : Filelist),
      getFullFilelist server fuel first = (log, Except.ok fl) →
      ∃ pages, PageChain server first pages ∧
        log = first :: pages.dropLast.map Page.next ∧
        fl.files = sortFiles ((pages.map Page.files).flatten) := by
  intro fuel
  induction fuel with
  | zero =>
    intro first log fl h
    simp [getFullFilelist] at h
  | succ fuel ih =>
    intro first log fl h
    cases hs : server first with
    | none => simp [getFullFilelist, hs] at h
    | some p =>
      simp only [getFullFilelist, hs] at h
      by_cases h2 : p.err = 2
      · simp [h2] at h
      rw [if_neg h2] at h
      by_cases h1 : p.err = 1
      · simp [h1] at h
      rw [if_neg h1] at h
      by_cases hn : p.next > 0
      · rw [if_pos hn] at h
        rcases hr : getFullFilelist server fuel p.next with ⟨log', res⟩
        rw [hr] at h
        cases res with
        | error e => simp at h
        | ok more =>
          simp only [Prod.mk.injEq, Except.ok.injEq] at h
          obtain ⟨hlog, hfl⟩ := h
          obtain ⟨pages', hchain', hlog', hfiles'⟩ := ih p.next log' more hr
          have hnz : p.next ≠ 0 := Nat.pos_iff_ne_zero.mp hn
          refine ⟨p :: pages', PageChain.more first p pages' hs h2 h1 hnz hchain', ?_, ?_⟩
          · obtain ⟨q, rest, rfl⟩ := List.exists_cons_of_ne_nil hchain'.ne_nil
            subst hlog hlog'
            simp [List.dropLast]
          · have hb : ∀ f ∈ (pages'.map Page.files).flatten, dfKind f := by
              intro f hf
              rw [List.mem_flatten] at hf
              obtain ⟨fs, hfs, hffs⟩ := hf
              rw [List.mem_map] at hfs
              obtain ⟨q, hq, rfl⟩ := hfs
              obtain ⟨o, ho⟩ := hchain'.mem_server q hq
              exact hdf o q ho f hffs
            rw [← hfl]
            show sortFiles (p.files ++ more.files) = _
            rw [hfiles', sortFiles_append_sortFiles hb]
            simp
      · rw [if_neg hn] at h
        simp only [Prod.mk.injEq, Except.ok.injEq] at h
        obtain ⟨hlog, hfl⟩ := h
        have hz : p.next = 0 := Nat.eq_zero_of_not_pos hn
        refine ⟨[p], PageChain.last first p hs h2 h1 hz, ?_, ?_⟩
        · simp [← hlog]
        · rw [← hfl]
          show sortFiles p.files = _
          simp

mutual
/-- buildIndex of v2/filelist.go (lines 70-88) as the list of keys the
index map receives: each subdirectory contributes its whole index and an
explicit mark of its Dir, each non-directory entry contributes
Dir + "/" + Name, and the listing marks its own Dir.  Every stored
value is true, so map lookup with its false default is exactly list
membership. -/
def buildIndex : Filelist → List String
  | .mk dir files _ _ subdirs =>
    buildIndexSubs subdirs
      ++ (files.filter (fun f => !f.isDir)).map (fun f => dir ++ "/" ++ f.name)
      ++ [dir]

/-- Contribution of the Subdirs loop of buildIndex. -/
def buildIndexSubs : List Filelist → List String
  | [] => []
  | s :: rest => (buildIndex s ++ [s.dir]) ++ buildIndexSubs rest
end

/-- Contains of v2/filelist.go (lines 65-68): build the index once and
look the path up, absent paths mapping to false. -/
def Filelist.Contains (f : Filelist) (path : String) : Bool :=
  (buildIndex f).contains path

mutual
/-- Modelled from the spec wording of the claim: the listing's own
directory path, every sub-listing's directory path at every depth, and
every file entry's parent directory path + "/" + name. -/
def specPaths : Filelist → List String
  | .mk dir files _ _ subdirs =>
    dir :: (files.filter (fun f => f.isFile)).map (fun f => dir ++ "/" ++ f.name)
      ++ specPathsSubs subdirs

def specPathsSubs : List Filelist → List String
  | [] => []
  | s :: rest => specPaths s ++ specPathsSubs rest
end

mutual
/-- Every entry everywhere in the tree carries one of the two protocol
kinds. -/
def dfTree : Filelist → Bool
  | .mk _ files _ _ subdirs =>
    files.all (fun f => f.isDir || f.isFile) && dfTreeSubs subdirs

def dfTreeSubs : List Filelist → Bool
  | [] => true
  | s :: rest => dfTree s && dfTreeSubs rest
end

/-- The listing marks its own Dir, so the explicit subdir.Dir mark of
the parent loop is redundant. -/
theorem dir_mem_buildIndex (fl : Filelist) : fl.dir ∈ buildIndex fl := by
  cases fl with
  | mk dir files next err subdirs => simp [buildIndex, Filelist.dir]

mutual
theorem mem_buildIndex_iff (fl : Filelist) (p : String) (hdf : dfTree fl = true) :
    (p ∈ buildIndex fl ↔ p ∈ specPaths fl) := by
  cases fl with
  | mk dir files next err subdirs =>
    simp only [dfTree, Bool.and_eq_true, List.all_eq_true] at hdf
    have hfilter : files.filter (fun f => !f.isDir) = files.filter (fun f => f.isFile) := by
      apply List.filter_congr
      intro f hf
      have hk := hdf.1 f hf
      cases hd : f.isDir with
      | true =>
        have : f.isFile = false := by
          simp only [File.isDir, beq_iff_eq] at hd
          simp [File.isFile, hd, typeDirectory, typeFile]
        simp [this]
      | false =>
        rw [hd] at hk
        simp only [Bool.false_or] at hk
        simp [hk]
    have hsub := mem_buildIndexSubs_iff subdirs p hdf.2
    simp only [buildIndex, specPaths, hfilter, List.mem_append, List.mem_cons,
      List.mem_singleton, List.not_mem_nil, or_false, hsub]
    tauto

theorem mem_buildIndexSubs_iff (ls : List Filelist) (p : String)
    (hdf : dfTreeSubs ls = true) :
    (p ∈ buildIndexSubs ls ↔ p ∈ specPathsSubs ls) := by
  cases ls with
  | nil => simp [buildIndexSubs, specPathsSubs]
  | cons s rest =>
    simp only [dfTreeSubs, Bool.and_eq_true] at hdf
    have hhead := mem_buildIndex_iff s p hdf.1
    have htail := mem_buildIndexSubs_iff rest p hdf.2
    simp only [buildIndexSubs, specPathsSubs, List.mem_append, List.mem_singleton]
    constructor
    · rintro ((hs | rfl) | hr)
      · exact Or.inl (hhead.mp hs)
      · exact Or.inl (hhead.mp (dir_mem_buildIndex s))
      · exact Or.inr (htail.mp hr)
    · rintro (hs | hr)
      · exact Or.inl (Or.inl (hhead.mpr hs))
      · exact Or.inr (htail.mpr hr)
end

/-- Reversed IEEE CRC-32 polynomial (the constant behind
crc32.ChecksumIEEE's table). -/
def crc32Poly : Nat := 0xEDB88320

/-- One shift-and-conditionally-xor step of the bitwise CRC-32. -/
def crc32Step (c : Nat) : Nat :=
  if c % 2 = 1 then (c / 2) ^^^ crc32Poly else c / 2

/-- Fold one payload byte into the running CRC. -/
def crc32Byte (crc b : Nat) : Nat := crc32Step^[8] (crc ^^^ b)

/-- crc32.ChecksumIEEE: init all-ones, fold every byte, final
complement (xor with all-ones). -/
def crc32IEEE (data : List Nat) : Nat :=
  (data.foldl crc32Byte 0xFFFFFFFF) ^^^ 0xFFFFFFFF

/-- binary.BigEndian.PutUint32: the four bytes of the checksum, most
significant first. -/
def beBytes32 (c : Nat) : List Nat :=
  [(c >>> 24) % 256, (c >>> 16) % 256, (c >>> 8) % 256, c % 256]

/-- Lowercase hex digit, as hex.EncodeToString renders it. -/
def hexDigit (n : Nat) : Char :=
  if n < 10 then Char.ofNat (48 + n) else Char.ofNat (87 + n)

/-- hex.EncodeToString: two lowercase hex digits per byte, in order. -/
def hexEncode (bs : List Nat) : String :=
  ⟨bs.flatMap (fun b => [hexDigit (b / 16), hexDigit (b % 16)])⟩

/-- The checksum string Upload attaches: 8 hex characters of the
big-endian CRC-32. -/
def crcString (data : List Nat) : String := hexEncode (beBytes32 (crc32IEEE data))

/-- The outcome of draining an io.Reader: either every byte of the
payload, or the read error. -/
abbrev ReadResult := Except String (List Nat)

/-- getCRC32 of the unnamed source file (lines 321-336): slurp the
reader (propagating a read failure verbatim), compute the IEEE CRC-32,
render it big-endian in hex, and hand back a reader replaying the same
buffered bytes together with the checksum string. -/
def getCRC32 (content : ReadResult) : Except String (List Nat × String) :=
  match content with
  | .error e => .error e
  | .ok b => .ok (b, crcString b)

/-- One POST issued by Upload: the query parameters (name, time, crc32),
the body bytes, and the content type. -/
structure UploadRequest where
  name : String
  time : String
  crc32 : String
  body : List Nat
  contentType : String
deriving DecidableEq

/-- Upload of the unnamed source file (lines 307-319), modelled up to
the POST: getCRC32 first (its failure is returned as is and nothing is
sent), then exactly one POST whose parameters carry the target path, the
timestamp and the checksum, and whose body is the buffered payload.  The
first component lists the POSTs issued; handling of the POST response
(checkError) is outside the modelled claims. -/
def Upload (path time : String) (content : ReadResult) :
    List UploadRequest × Except String Unit :=
  match getCRC32 content with
  | .error e => ([], .error e)
  | .ok (body, crc) =>
    ([⟨path, time, crc, body, "application/octet-stream"⟩], .ok ())

/-- One request issued by the MoveOverwrite flow. -/
inductive FMCall where
  | fileinfo (path : String)
  | delete (path : String)
  | move (oldpath newpath : String)
deriving DecidableEq

/-- Outcomes of the three underlying calls, as functions of the request
parameters: true means the call succeeds (for fileinfo: decoded Err is 0
and the transport worked, i.e. the probe finds the file). -/
structure FMEnv where
  fileinfoOK : String → Bool
  deleteOK : String → Bool
  moveOK : String → String → Bool

/-- MoveOverwrite of rfm.go (lines 200-207): probe the target with
Fileinfo; on probe success delete the target, aborting on a delete
failure; then move.  The first component lists the calls issued in
order. -/
def MoveOverwrite (env : FMEnv) (oldpath newpath : String) :
    List FMCall × Except String Unit :=
  if env.fileinfoOK newpath then
    if env.deleteOK newpath then
      ([.fileinfo newpath, .delete newpath, .move oldpath newpath],
        if env.moveOK oldpath newpath then .ok () else .error "move")
    else ([.fileinfo newpath, .delete newpath], .error "delete")
  else
    ([.fileinfo newpath, .move oldpath newpath],
      if env.moveOK oldpath newpath then .ok () else .error "move")

/-- The rr_filelist endpoint across directories: the dir parameter
selects the per-directory paged server. -/
abbrev DirServer := String → Server

/-- The recursive-descent loop of Filelist (unnamed source file, lines
212-225) over the directory prefix of the sorted entries: fetch every
subdirectory in order with the given fetch function, stopping at the
first failure and discarding everything already built. -/
def subsWith (fetch : String → Except LErr Filelist) (base : String) :
    List File → Except LErr (List Filelist)
  | [] => .ok []
  | f :: fs =>
    match fetch (base ++ "/" ++ f.name) with
    | .error e => .error e
    | .ok sub =>
      match subsWith fetch base fs with
      | .error e => .error e
      | .ok subs => .ok (sub :: subs)

/-- Filelist with recursive=true (unnamed source file, lines 207-227):
drain the directory's pages, then recurse into each directory entry
(directories sort first, so the scan stops at the first file), appending
the sub-listings to Subdirs.  The outer fuel bounds the descent depth,
pfuel is handed to every pagination run. -/
def filelistRec (server : DirServer) (pfuel : Nat) : Nat → String → Except LErr Filelist
  | 0, _ => .error .fuelExhausted
  | fuel+1, dir =>
    match (getFullFilelist (server dir) pfuel 0).2 with
    | .error e => .error e
    | .ok fl =>
      match subsWith (fun d => filelistRec server pfuel fuel d) fl.dir
          (fl.files.takeWhile (fun f => f.isDir)) with
      | .error e => .error e
      | .ok subs => .ok (.mk fl.dir fl.files fl.next fl.err subs)

/-- The files loop of deleteRecursive: one rr_delete per entry carrying
the entry's Name, stopping at the first failing delete.  The error kept
is the name whose delete failed (the Go error message names the same
path). -/
def deleteFiles (env : String → Bool) : List File → List String × Except String Unit
  | [] => ([], .ok ())
  | f :: fs =>
    match env f.name with
    | true =>
      match deleteFiles env fs with
      | (log, r) => (f.name :: log, r)
    | false => ([f.name], .error f.name)

mutual
/-- deleteRecursive of rfm.go (lines 222-234): recurse into every
sub-listing first, aborting on the first failure, then delete this
listing's files by Name.  The first component lists the rr_delete name
parameters in order. -/
def deleteRecursive (env : String → Bool) : Filelist → List String × Except String Unit
  | .mk _ files _ _ subdirs =>
    match deleteSubs env subdirs with
    | (log, .error e) => (log, .error e)
    | (log, .ok _) =>
      match deleteFiles env files with
      | (log2, r) => (log ++ log2, r)

def deleteSubs (env : String → Bool) : List Filelist → List String × Except String Unit
  | [] => ([], .ok ())
  | s :: rest =>
    match deleteRecursive env s with
    | (log, .error e) => (log, .error e)
    | (log, .ok _) =>
      match deleteSubs env rest with
      | (log2, r) => (log ++ log2, r)
end

mutual
/-- The names of all files of the tree in the order deleteRecursive
visits them: sub-listings first (depth-first), then this listing's own
entries' bare names. -/
def postorderNames : Filelist → List String
  | .mk _ files _ _ subdirs => postorderNamesSubs subdirs ++ files.map File.name

def postorderNamesSubs : List Filelist → List String
  | [] => []
  | s :: rest => postorderNames s ++ postorderNamesSubs rest
end

/-- A failure of any subdirectory fetch, all earlier ones succeeding,
is the result of the whole descent loop. -/
theorem subsWith_error (fetch : String → Except LErr Filelist) (base : String)
    (pre : List File) (f : File) (post : List File) (e : LErr)
    (hpre : ∀ g ∈ pre, ∃ s, fetch (base ++ "/" ++ g.name) = .ok s)
    (hf : fetch (base ++ "/" ++ f.name) = .error e) :
    subsWith fetch base (pre ++ f :: post) = .error e := by
  induction pre with
  | nil =>
    simp only [List.nil_append, subsWith, hf]
  | cons g gs ih =>
    obtain ⟨s, hs⟩ := hpre g (List.mem_cons_self g gs)
    have htail := ih (fun g' hg' => hpre g' (List.mem_cons_of_mem g hg'))
    simp only [List.cons_append, subsWith, hs, List.append_eq, htail]

theorem deleteFiles_ok {env : String → Bool} {files : List File} {u : Unit}
    (h : (deleteFiles env files).2 = .ok u) :
    (deleteFiles env files).1 = files.map File.name := by
  induction files with
  | nil => rfl
  | cons f fs ih =>
    rcases hr : deleteFiles env fs with ⟨log, r⟩
    rw [hr] at ih
    cases hf : env f.name with
    | true =>
      simp only [deleteFiles, hf, hr] at h ⊢
      have := ih h
      simp only at this
      rw [this, List.map_cons]
    | false =>
      simp only [deleteFiles, hf] at h
      exact Except.noConfusion h

theorem deleteFiles_ok_true {env : String → Bool} {files : List File} {u : Unit}
    (h : (deleteFiles env files).2 = .ok u) :
    ∀ x ∈ (deleteFiles env files).1, env x = true := by
  induction files with
  | nil => simp [deleteFiles]
  | cons f fs ih =>
    rcases hr : deleteFiles env fs with ⟨log, r⟩
    rw [hr] at ih
    cases hf : env f.name with
    | true =>
      simp only [deleteFiles, hf, hr] at h ⊢
      intro x hx
      rcases List.mem_cons.mp hx with rfl | hx
      · exact hf
      · exact ih h x hx
    | false =>
      simp only [deleteFiles, hf] at h
      exact Except.noConfusion h

theorem deleteFiles_error {env : String → Bool} {files : List File} {e : String}
    (h : (deleteFiles env files).2 = .error e) :
    ∃ pre, (deleteFiles env files).1 = pre ++ [e] ∧ env e = false ∧
      ∀ x ∈ pre, env x = true := by
  induction files with
  | nil => simp [deleteFiles] at h
  | cons f fs ih =>
    rcases hr : deleteFiles env fs with ⟨log, r⟩
    rw [hr] at ih
    cases hf : env f.name with
    | true =>
      simp only [deleteFiles, hf, hr] at h ⊢
      obtain ⟨pre, hlog, he, hpre⟩ := ih h
      refine ⟨f.name :: pre, ?_, he, ?_⟩
      · simp only [List.cons_append, List.cons.injEq, true_and]
        exact hlog
      · intro x hx
        rcases List.mem_cons.mp hx with rfl | hx
        · exact hf
        · exact hpre x hx
    | false =>
      simp only [deleteFiles, hf] at h ⊢
      rcases Except.error.inj h with rfl
      exact ⟨[], rfl, hf, by simp⟩

mutual
theorem deleteRecursive_ok {env : String → Bool} {fl : Filelist} {u : Unit}
    (h : (deleteRecursive env fl).2 = .ok u) :
    (deleteRecursive env fl).1 = postorderNames fl := by
  cases fl with
  | mk dir files next err subdirs =>
    rcases hs : deleteSubs env subdirs with ⟨log, r⟩
    cases r with
    | error e =>
      simp only [deleteRecursive, hs] at h
      exact Except.noConfusion h
    | ok v =>
      rcases hfi : deleteFiles env files with ⟨log2, r2⟩
      simp only [deleteRecursive, hs, hfi] at h ⊢
      have h1 : log = postorderNamesSubs subdirs := by
        have := @deleteSubs_ok env subdirs v
        rw [hs] at this
        exact this rfl
      have h2 : log2 = files.map File.name := by
        have := @deleteFiles_ok env files u
        rw [hfi] at this
        exact this h
      rw [postorderNames, h1, h2]

theorem deleteSubs_ok {env : String → Bool} {ls : List Filelist} {u : Unit}
    (h : (deleteSubs env ls).2 = .ok u) :
    (deleteSubs env ls).1 = postorderNamesSubs ls := by
  cases ls with
  | nil => rfl
  | cons s rest =>
    rcases hr : deleteRecursive env s with ⟨log, r⟩
    cases r with
    | error e =>
      simp only [deleteSubs, hr] at h
      exact Except.noConfusion h
    | ok v =>
      rcases ht : deleteSubs env rest with ⟨log2, r2⟩
      simp only [deleteSubs, hr, ht] at h ⊢
      have h1 : log = postorderNames s := by
        have := @deleteRecursive_ok env s v
        rw [hr] at this
        exact this rfl
      have h2 : log2 = postorderNamesSubs rest := by
        have := @deleteSubs_ok env rest u
        rw [ht] at this
        exact this h
      rw [postorderNamesSubs, h1, h2]
end

mutual
theorem deleteRecursive_ok_true {env : String → Bool} {fl : Filelist} {u : Unit}
    (h : (deleteRecursive env fl).2 = .ok u) :
    ∀ x ∈ (deleteRecursive env fl).1, env x = true := by
  cases fl with
  | mk dir files next err subdirs =>
    rcases hs : deleteSubs env subdirs with ⟨log, r⟩
    cases r with
    | error e =>
      simp only [deleteRecursive, hs] at h
      exact Except.noConfusion h
    | ok v =>
      rcases hfi : deleteFiles env files with ⟨log2, r2⟩
      simp only [deleteRecursive, hs, hfi] at h ⊢
      intro x hx
      rcases List.mem_append.mp hx with hx | hx
      · have := @deleteSubs_ok_true env subdirs v
        rw [hs] at this
        exact this rfl x hx
      · have := @deleteFiles_ok_true env files u
        rw [hfi] at this
        exact this h x hx

theorem deleteSubs_ok_true {env : String → Bool} {ls : List Filelist} {u : Unit}
    (h : (deleteSubs env ls).2 = .ok u) :
    ∀ x ∈ (deleteSubs env ls).1, env x = true := by
  cases ls with
  | nil => simp [deleteSubs]
  | cons s rest =>
    rcases hr : deleteRecursive env s with ⟨log, r⟩
    cases r with
    | error e =>
      simp only [deleteSubs, hr] at h
      exact Except.noConfusion h
    | ok v =>
      rcases ht : deleteSubs env rest with ⟨log2, r2⟩
      simp only [deleteSubs, hr, ht] at h ⊢
      intro x hx
      rcases List.mem_append.mp hx with hx | hx
      · have := @deleteRecursive_ok_true env s v
        rw [hr] at this
        exact this rfl x hx
      · have := @deleteSubs_ok_true env rest u
        rw [ht] at this
        exact this h x hx
end

mutual
theorem deleteRecursive_error {env : String → Bool} {fl : Filelist} {e : String}
    (h : (deleteRecursive env fl).2 = .error e) :
    ∃ pre, (deleteRecursive env fl).1 = pre ++ [e] ∧ env e = false ∧
      ∀ x ∈ pre, env x = true := by
  cases fl with
  | mk dir files next err subdirs =>
    rcases hs : deleteSubs env subdirs with ⟨log, r⟩
    cases r with
    | error e' =>
      simp only [deleteRecursive, hs] at h ⊢
      have hee : e' = e := Except.error.inj h
      rw [← hee]
      have := @deleteSubs_error env subdirs e'
      rw [hs] at this
      exact this rfl
    | ok v =>
      rcases hfi : deleteFiles env files with ⟨log2, r2⟩
      simp only [deleteRecursive, hs, hfi] at h ⊢
      have hok := @deleteSubs_ok_true env subdirs v
      rw [hs] at hok
      have hfe := @deleteFiles_error env files e
      rw [hfi] at hfe
      obtain ⟨pre, hlog, he, hpre⟩ := hfe h
      simp only at hlog
      refine ⟨log ++ pre, by rw [hlog, List.append_assoc], he, ?_⟩
      intro x hx
      rcases List.mem_append.mp hx with hx | hx
      · exact hok rfl x hx
      · exact hpre x hx

theorem deleteSubs_error {env : String → Bool} {ls : List Filelist} {e : String}
    (h : (deleteSubs env ls).2 = .error e) :
    ∃ pre, (deleteSubs env ls).1 = pre ++ [e] ∧ env e = false ∧
      ∀ x ∈ pre, env x = true := by
  cases ls with
  | nil => simp [deleteSubs] at h
  | cons s rest =>
    rcases hr : deleteRecursive env s with ⟨log, r⟩
    cases r with
    | error e' =>
      simp only [deleteSubs, hr] at h ⊢
      have hee : e' = e := Except.error.inj h
      rw [← hee]
      have := @deleteRecursive_error env s e'
      rw [hr] at this
      exact this rfl
    | ok v =>
      rcases ht : deleteSubs env rest with ⟨log2, r2⟩
      simp only [deleteSubs, hr, ht] at h ⊢
      have hok := @deleteRecursive_ok_true env s v
      rw [hr] at hok
      have hte := @deleteSubs_error env rest e
      rw [ht] at hte
      obtain ⟨pre, hlog, he, hpre⟩ := hte h
      simp only at hlog
      refine ⟨log ++ pre, by rw [hlog, List.append_assoc], he, ?_⟩
      intro x hx
      rcases List.mem_append.mp hx with hx | hx
      · exact hok rfl x hx
      · exact hpre x hx
end

theorem deleteFiles_isPre (env : String → Bool) (files : List File) :
    ∃ rest, (deleteFiles env files).1 ++ rest = files.map File.name := by
  induction files with
  | nil => exact ⟨[], rfl⟩
  | cons f fs ih =>
    rcases hr : deleteFiles env fs with ⟨log, r⟩
    rw [hr] at ih
    cases hf : env f.name with
    | true =>
      obtain ⟨rest, hrest⟩ := ih
      simp only at hrest
      refine ⟨rest, ?_⟩
      simp only [deleteFiles, hf, hr, List.cons_append, List.map_cons, List.cons.injEq, true_and]
      exact hrest
    | false =>
      refine ⟨fs.map File.name, ?_⟩
      simp only [deleteFiles, hf, List.map_cons, List.singleton_append]

mutual
theorem deleteRecursive_isPre (env : String → Bool) (fl : Filelist) :
    ∃ rest, (deleteRecursive env fl).1 ++ rest = postorderNames fl := by
  cases fl with
  | mk dir files next err subdirs =>
    rcases hs : deleteSubs env subdirs with ⟨log, r⟩
    cases r with
    | error e =>
      obtain ⟨rest, hrest⟩ := deleteSubs_isPre env subdirs
      rw [hs] at hrest
      simp only at hrest
      refine ⟨rest ++ files.map File.name, ?_⟩
      simp only [deleteRecursive, hs, postorderNames, ← hrest, List.append_assoc]
    | ok v =>
      rcases hfi : deleteFiles env files with ⟨log2, r2⟩
      have hfull : log = postorderNamesSubs subdirs := by
        have := @deleteSubs_ok env subdirs v
        rw [hs] at this
        exact this rfl
      obtain ⟨rest, hrest⟩ := deleteFiles_isPre env files
      rw [hfi] at hrest
      simp only at hrest
      refine ⟨rest, ?_⟩
      simp only [deleteRecursive, hs, hfi, postorderNames, hfull, List.append_assoc, hrest]

theorem deleteSubs_isPre (env : String → Bool) (ls : List Filelist) :
    ∃ rest, (deleteSubs env ls).1 ++ rest = postorderNamesSubs ls := by
  cases ls with
  | nil => exact ⟨[], rfl⟩
  | cons s rest_ls =>
    rcases hr : deleteRecursive env s with ⟨log, r⟩
    cases r with
    | error e =>
      obtain ⟨rest, hrest⟩ := deleteRecursive_isPre env s
      rw [hr] at hrest
      simp only at hrest
      refine ⟨rest ++ postorderNamesSubs rest_ls, ?_⟩
      simp only [deleteSubs, hr, postorderNamesSubs, ← hrest, List.append_assoc]
    | ok v =>
      rcases ht : deleteSubs env rest_ls with ⟨log2, r2⟩
      have hfull : log = postorderNames s := by
        have := @deleteRecursive_ok env s v
        rw [hr] at this
        exact this rfl
      obtain ⟨rest, hrest⟩ := deleteSubs_isPre env rest_ls
      rw [ht] at hrest
      simp only at hrest
      refine ⟨rest, ?_⟩
      simp only [deleteSubs, hr, ht, postorderNamesSubs, hfull, List.append_assoc, hrest]
end

/-- Every page of a chain except the last reports a nonzero next
offset, and the last reports zero: the chain stops exactly at the first
page without a successor. -/
theorem PageChain.next_shape {server : Server} {first : Nat} {ps : List Page}
    (h : PageChain server first ps) :
    (∀ q ∈ ps.dropLast, q.next ≠ 0) ∧ (∀ q, ps.getLast? = some q → q.next = 0) := by
  induction h with
  | last first p hs _ _ hz =>
    refine ⟨by simp [List.dropLast], ?_⟩
    intro q hq
    simp only [List.getLast?_singleton, Option.some.injEq] at hq
    rw [← hq]
    exact hz
  | more first p ps hs _ _ hnz hc ih =>
    obtain ⟨q0, rest, rfl⟩ := List.exists_cons_of_ne_nil hc.ne_nil
    refine ⟨?_, ?_⟩
    · intro q hq
      simp only [List.dropLast_cons₂, List.mem_cons] at hq
      rcases hq with rfl | hq
      · exact hnz
      · exact ih.1 q (by simpa using hq)
    · intro q hq
      rw [List.getLast?_cons_cons] at hq
      exact ih.2 q hq

/-- In a pairwise-sorted output no file entry precedes a directory
entry. -/
theorem fileGE_no_file_before_dir {a b : File} (h : fileGE a b) :
    ¬(a.isFile = true ∧ b.isDir = true) := by
  rintro ⟨haf, hbd⟩
  simp only [File.isFile, File.isDir, beq_iff_eq, typeFile, typeDirectory] at haf hbd
  unfold fileGE fileLess at h
  rw [if_neg (by rw [hbd, haf]; decide)] at h
  rw [hbd] at h
  simp [typeDirectory] at h

/-- In a pairwise-sorted output entries of one kind carry non-decreasing
names. -/
theorem fileGE_name_le {a b : File} (h : fileGE a b) (ht : a.type = b.type) :
    a.name ≤ b.name := by
  unfold fileGE fileLess at h
  rw [if_pos ht.symm] at h
  rw [strLtB_false_iff] at h
  exact le_of_not_lt h

/-- The sixteen hex digits all render inside the hex alphabet. -/
theorem hexDigit_mem {n : Nat} (h : n < 16) :
    hexDigit n ∈ ("0123456789abcdef").data := by
  interval_cases n <;> decide

/-! Concrete objects used by witnesses and counterexamples. -/

def fileFA : File := ⟨"f", "a", 0, ""⟩

def fileFB : File := ⟨"f", "b", 0, ""⟩

def pg0 : Page := ⟨"/d", [fileFB], 2, 0⟩

def pg1 : Page := ⟨"/d", [fileFA], 0, 0⟩

/-- A directory spanning two pages: offset 0 holds file "b" and points
at offset 2, offset 2 holds file "a" and ends the listing. -/
def srvTwoPages : Server := fun n =>
  if n = 0 then some pg0 else if n = 2 then some pg1 else none

theorem srvTwoPages_df : ∀ (first : Nat) (p : Page), srvTwoPages first = some p →
    ∀ f ∈ p.files, dfKind f := by
  intro first p hp f hf
  unfold srvTwoPages at hp
  split_ifs at hp with h0 h2
  · cases hp
    simp only [pg0, List.mem_singleton] at hf
    subst hf
    exact Or.inr rfl
  · cases hp
    simp only [pg1, List.mem_singleton] at hf
    subst hf
    exact Or.inr rfl

/-- Claim C1 (amended): for every directory listing run that succeeds,
the engine walks the server's page chain from offset 0, requesting each
following page at the previous page's nonzero next offset ("first"
parameter, 0 on the first call) and stopping at the first page whose
next offset is zero; the assembled entries are the stable
directories-first, then-by-name sort of the concatenation of all pages
in offset order. -/
theorem c1_pagination (server : Server) (fuel : Nat) (fl : Filelist)
    (hdf : ∀ first p, server first = some p → ∀ f ∈ p.files, dfKind f)
    (hrun : (getFullFilelist server fuel 0).2 = Except.ok fl) :
    ∃ pages, PageChain server 0 pages ∧
      (getFullFilelist server fuel 0).1 = 0 :: pages.dropLast.map Page.next ∧
      (∀ q ∈ pages.dropLast, q.next ≠ 0) ∧
      (∀ q, pages.getLast? = some q → q.next = 0) ∧
      fl.files = sortFiles ((pages.map Page.files).flatten) := by
  obtain ⟨pages, hchain, hlog, hfiles⟩ :=
    getFullFilelist_ok hdf fuel 0 (getFullFilelist server fuel 0).1 fl
      (by rw [← hrun])
  exact ⟨pages, hchain, hlog, hchain.next_shape.1, hchain.next_shape.2, hfiles⟩

theorem c1_pagination_witness :
    ∃ pages, PageChain srvTwoPages 0 pages ∧
      (getFullFilelist srvTwoPages 2 0).1 = 0 :: pages.dropLast.map Page.next ∧
      (∀ q ∈ pages.dropLast, q.next ≠ 0) ∧
      (∀ q, pages.getLast? = some q → q.next = 0) ∧
      (Filelist.mk "/d" [fileFA, fileFB] 2 0 []).files =
        sortFiles ((pages.map Page.files).flatten) :=
  c1_pagination srvTwoPages 2 (Filelist.mk "/d" [fileFA, fileFB] 2 0 [])
    srvTwoPages_df rfl

/-- Claim C1, counterexample to the literal statement: the assembled
entries sequence is the sorted concatenation, not the concatenation
itself.  With page 0 = [file "b"] (next 2) and page 2 = [file "a"]
(next 0) the engine returns [a, b] while the concatenation of the pages
in offset order is [b, a]. -/
theorem c1_counterexample :
    PageChain srvTwoPages 0 [pg0, pg1] ∧
    Except.map Filelist.files (getFullFilelist srvTwoPages 2 0).2 =
      Except.ok [fileFA, fileFB] ∧
    ([pg0, pg1].map Page.files).flatten = [fileFB, fileFA] ∧
    ([fileFA, fileFB] : List File) ≠ [fileFB, fileFA] := by
  refine ⟨?_, rfl, rfl, by decide⟩
  exact PageChain.more 0 pg0 [pg1] rfl (by decide) (by decide) (by decide)
    (PageChain.last 2 pg1 rfl (by decide) (by decide) rfl)

/-- Claim C2: in the final entries of a successful listing every
directory entry precedes every file entry, names are non-decreasing
within one kind, the sort is stable with ties broken purely by name
(each same-kind same-name tie class keeps its page-arrival order), and
sorting the already-sorted sequence again changes nothing. -/
theorem c2_sorted (server : Server) (fuel : Nat) (fl : Filelist)
    (hdf : ∀ first p, server first = some p → ∀ f ∈ p.files, dfKind f)
    (hrun : (getFullFilelist server fuel 0).2 = Except.ok fl) :
    (fl.files.Pairwise fun a b => ¬(a.isFile = true ∧ b.isDir = true)) ∧
    (fl.files.Pairwise fun a b => a.type = b.type → a.name ≤ b.name) ∧
    (∀ pages, PageChain server 0 pages → ∀ t n,
      fl.files.filter (sameKey t n) =
        ((pages.map Page.files).flatten).filter (sameKey t n)) ∧
    sortFiles fl.files = fl.files := by
  obtain ⟨pages, hchain, hlog, hfiles⟩ :=
    getFullFilelist_ok hdf fuel 0 (getFullFilelist server fuel 0).1 fl
      (by rw [← hrun])
  have hdfL : ∀ f ∈ (pages.map Page.files).flatten, dfKind f := by
    intro f hf
    rw [List.mem_flatten] at hf
    obtain ⟨fs, hfs, hffs⟩ := hf
    rw [List.mem_map] at hfs
    obtain ⟨q, hq, rfl⟩ := hfs
    obtain ⟨o, ho⟩ := hchain.mem_server q hq
    exact hdf o q ho f hffs
  have hsorted := sortFiles_pairwise hdfL
  rw [hfiles]
  refine ⟨hsorted.imp (fun h => fileGE_no_file_before_dir h),
    hsorted.imp (fun h ht => fileGE_name_le h ht), ?_,
    sortFiles_of_pairwise hsorted⟩
  intro pages' hchain' t n
  rw [← hchain.unique hchain']
  exact filter_sortFiles t n _

theorem c2_sorted_witness :
    ((Filelist.mk "/d" [fileFA, fileFB] 2 0 []).files.Pairwise
      fun a b => ¬(a.isFile = true ∧ b.isDir = true)) ∧
    ((Filelist.mk "/d" [fileFA, fileFB] 2 0 []).files.Pairwise
      fun a b => a.type = b.type → a.name ≤ b.name) ∧
    (∀ pages, PageChain srvTwoPages 0 pages → ∀ t n,
      (Filelist.mk "/d" [fileFA, fileFB] 2 0 []).files.filter (sameKey t n) =
        ((pages.map Page.files).flatten).filter (sameKey t n)) ∧
    sortFiles (Filelist.mk "/d" [fileFA, fileFB] 2 0 []).files =
      (Filelist.mk "/d" [fileFA, fileFB] 2 0 []).files :=
  c2_sorted srvTwoPages 2 (Filelist.mk "/d" [fileFA, fileFB] 2 0 [])
    srvTwoPages_df rfl

/-- A directory page decoded with error code 3. -/
def srvErrThree : Server := fun _ => some ⟨"/d", [], 0, 3⟩

/-- A directory page decoded with error code 2. -/
def srvErrTwo : Server := fun _ => some ⟨"/d", [], 0, 2⟩

/-- A directory page decoded with error code 1. -/
def srvErrOne : Server := fun _ => some ⟨"/d", [], 0, 1⟩

/-- A directory page decoded with error code 0. -/
def srvErrZero : Server := fun _ => some ⟨"/d", [], 0, 0⟩

/-- Claim C4 (amended): a decoded list page with error code 2 fails
with DirectoryNotFound, code 1 fails with DriveNotMounted, and any
other code (0 or an unrecognized nonzero code alike) proceeds
normally -- the engine checks no further error codes. -/
theorem c4_error_codes (server : Server) (fuel first : Nat) (p : Page)
    (hs : server first = some p) :
    (p.err = 2 →
      (getFullFilelist server (fuel+1) first).2 = .error .directoryNotFound) ∧
    (p.err = 1 →
      (getFullFilelist server (fuel+1) first).2 = .error .driveNotMounted) ∧
    (p.err ≠ 2 → p.err ≠ 1 → p.next = 0 →
      (getFullFilelist server (fuel+1) first).2 =
        .ok (.mk p.dir (sortFiles p.files) p.next p.err [])) := by
  refine ⟨fun h2 => ?_, fun h1 => ?_, fun h2 h1 hz => ?_⟩
  · simp [getFullFilelist, hs, h2]
  · simp [getFullFilelist, hs, h1]
  · simp [getFullFilelist, hs, h2, h1, hz]

theorem c4_error_codes_witness :
    (getFullFilelist srvErrTwo 1 0).2 = .error .directoryNotFound ∧
    (getFullFilelist srvErrOne 1 0).2 = .error .driveNotMounted ∧
    (getFullFilelist srvErrZero 1 0).2 = .ok (.mk "/d" [] 0 0 []) :=
  ⟨(c4_error_codes srvErrTwo 0 0 ⟨"/d", [], 0, 2⟩ rfl).1 rfl,
   (c4_error_codes srvErrOne 0 0 ⟨"/d", [], 0, 1⟩ rfl).2.1 rfl,
   (c4_error_codes srvErrZero 0 0 ⟨"/d", [], 0, 0⟩ rfl).2.2
     (by decide) (by decide) rfl⟩

/-- Claim C4, counterexample to the literal statement: a decoded error
code 3 is not treated as a failure of the call; the listing proceeds
normally and returns the page. -/
theorem c4_counterexample :
    (getFullFilelist srvErrThree 1 0).2 = Except.ok (Filelist.mk "/d" [] 0 3 []) ∧
    ∀ e : LErr, (getFullFilelist srvErrThree 1 0).2 ≠ Except.error e := by
  refine ⟨rfl, ?_⟩
  intro e h
  rw [show (getFullFilelist srvErrThree 1 0).2 =
    Except.ok (Filelist.mk "/d" [] 0 3 []) from rfl] at h
  exact Except.noConfusion h

/-- The recursive-listing scenario tree: /gcodes with empty
subdirectory a and subdirectory b holding x.gcode. -/
def gcodesTree : Filelist :=
  .mk "/gcodes" [⟨"d", "a", 0, ""⟩, ⟨"d", "b", 0, ""⟩] 0 0
    [.mk "/gcodes/a" [] 0 0 [],
     .mk "/gcodes/b" [⟨"f", "x.gcode", 1, ""⟩] 0 0 []]

/-- Claim C3: over a recursively fetched tree, Contains holds exactly
for the listing's own directory path, every sub-listing's directory
path at every depth, and every file entry's parent path + "/" + name;
every other path is absent.  In the /gcodes scenario the three listed
paths are contained and "/gcodes/missing" is not. -/
theorem c3_contains :
    (∀ (fl : Filelist) (p : String), dfTree fl = true →
      (fl.Contains p = true ↔ p ∈ specPaths fl)) ∧
    (gcodesTree.Contains "/gcodes/b/x.gcode" = true ∧
     gcodesTree.Contains "/gcodes/b" = true ∧
     gcodesTree.Contains "/gcodes/a" = true ∧
     gcodesTree.Contains "/gcodes/missing" = false) := by
  constructor
  · intro fl p hdf
    rw [Filelist.Contains]
    have hcm : ((buildIndex fl).contains p = true) ↔ p ∈ buildIndex fl := by
      constructor
      · intro h
        exact List.mem_of_elem_eq_true h
      · intro h
        exact List.elem_eq_true_of_mem h
    rw [hcm]
    exact mem_buildIndex_iff fl p hdf
  · exact ⟨by decide, by decide, by decide, by decide⟩

theorem c3_contains_witness :
    dfTree gcodesTree = true ∧
    (gcodesTree.Contains "/gcodes/b/x.gcode" = true ↔
      "/gcodes/b/x.gcode" ∈ specPaths gcodesTree) :=
  ⟨by decide, c3_contains.1 gcodesTree "/gcodes/b/x.gcode" (by decide)⟩

/-- Claim C5: Upload attaches as the crc32 parameter the IEEE CRC-32 of
the full payload rendered big-endian as exactly 8 hexadecimal
characters; the string is a function of the payload alone, hence
identical on every invocation. -/
theorem c5_upload_checksum (path time : String) (bs : List Nat) :
    (Upload path time (.ok bs)).1 =
      [⟨path, time, crcString bs, bs, "application/octet-stream"⟩] ∧
    crcString bs = hexEncode (beBytes32 (crc32IEEE bs)) ∧
    (crcString bs).length = 8 ∧
    ∀ c ∈ (crcString bs).data, c ∈ ("0123456789abcdef").data := by
  refine ⟨rfl, rfl, rfl, ?_⟩
  intro c hc
  have hc' : c ∈ (beBytes32 (crc32IEEE bs)).flatMap
      (fun b => [hexDigit (b / 16), hexDigit (b % 16)]) := hc
  rw [List.mem_flatMap] at hc'
  obtain ⟨b, hb, hcb⟩ := hc'
  have hblt : b < 256 := by
    simp only [beBytes32, List.mem_cons, List.mem_singleton,
      List.not_mem_nil, or_false] at hb
    rcases hb with rfl | rfl | rfl | rfl <;> exact Nat.mod_lt _ (by decide)
  rcases List.mem_cons.mp hcb with rfl | hcb2
  · refine hexDigit_mem ?_
    rw [Nat.div_lt_iff_lt_mul (by decide : 0 < 16)]
    omega
  · rcases List.mem_singleton.mp hcb2 with rfl
    exact hexDigit_mem (Nat.mod_lt _ (by decide))

/-- Claim C6: the body of the POST Upload issues is byte-for-byte the
input payload, of unchanged length: buffering for the checksum alters
nothing. -/
theorem c6_upload_body (path time : String) (bs : List Nat) :
    ((Upload path time (.ok bs)).1.map fun r => r.body) = [bs] ∧
    ((Upload path time (.ok bs)).1.map fun r => r.body.length) = [bs.length] :=
  ⟨rfl, rfl⟩

/-- Claim C7: when reading the payload fails, Upload returns that read
error verbatim and issues no POST at all. -/
theorem c7_upload_read_error (path time e : String) :
    Upload path time (.error e) = ([], .error e) := rfl

/-- Claim C8: MoveOverwrite probes the target with Fileinfo; when the
probe succeeds the target is deleted before the move, in that order;
when the probe fails (not found) no delete is issued and only the move
runs. -/
theorem c8_move_overwrite (env : FMEnv) (o n : String) :
    (env.fileinfoOK n = true → env.deleteOK n = true →
      (MoveOverwrite env o n).1 = [.fileinfo n, .delete n, .move o n]) ∧
    (env.fileinfoOK n = false →
      (MoveOverwrite env o n).1 = [.fileinfo n, .move o n]) := by
  constructor
  · intro h1 h2
    simp [MoveOverwrite, h1, h2]
  · intro h1
    simp [MoveOverwrite, h1]

/-- Probe finds the target and the delete succeeds. -/
def envTargetThere : FMEnv := ⟨fun _ => true, fun _ => true, fun _ _ => true⟩

/-- Probe reports the target as missing. -/
def envTargetGone : FMEnv := ⟨fun _ => false, fun _ => true, fun _ _ => true⟩

theorem c8_move_overwrite_witness :
    (MoveOverwrite envTargetThere "/a" "/b").1 =
      [.fileinfo "/b", .delete "/b", .move "/a" "/b"] ∧
    (MoveOverwrite envTargetGone "/a" "/b").1 =
      [.fileinfo "/b", .move "/a" "/b"] :=
  ⟨(c8_move_overwrite envTargetThere "/a" "/b").1 rfl rfl,
   (c8_move_overwrite envTargetGone "/a" "/b").2 rfl⟩

/-- Claim C9: the first failure at any depth aborts the whole
operation.  For recursive listing: when the page fetch of the current
directory succeeds but some subdirectory's recursive listing fails (all
earlier siblings having succeeded), the whole call returns exactly that
error and no Listing.  For recursive delete: a failing run's delete log
ends at the failing name - every earlier delete succeeded and no delete
is issued after the failing one. -/
theorem c9_first_failure_aborts :
    (∀ (server : DirServer) (pfuel fuel : Nat) (dir : String) (fl : Filelist)
        (pre : List File) (f : File) (post : List File) (e : LErr),
      (getFullFilelist (server dir) pfuel 0).2 = .ok fl →
      fl.files.takeWhile (fun g => g.isDir) = pre ++ f :: post →
      (∀ g ∈ pre, ∃ s, filelistRec server pfuel fuel (fl.dir ++ "/" ++ g.name) = .ok s) →
      filelistRec server pfuel fuel (fl.dir ++ "/" ++ f.name) = .error e →
      filelistRec server pfuel (fuel+1) dir = .error e) ∧
    (∀ (env : String → Bool) (fl : Filelist) (e : String),
      (deleteRecursive env fl).2 = .error e →
      env e = false ∧ ∃ pre, (deleteRecursive env fl).1 = pre ++ [e] ∧
        ∀ x ∈ pre, env x = true) := by
  constructor
  · intro server pfuel fuel dir fl pre f post e hpage htw hpre hf
    have hsub := subsWith_error (fun d => filelistRec server pfuel fuel d)
      fl.dir pre f post e hpre hf
    simp only [filelistRec, hpage, htw, hsub]
  · intro env fl e h
    obtain ⟨pre, hlog, he, hpre⟩ := deleteRecursive_error h
    exact ⟨he, pre, hlog, hpre⟩

/-- One directory /d holding the single subdirectory a, whose own
listing request fails at the transport. -/
def srvAbort : DirServer := fun d =>
  if d = "/d" then (fun _ => some ⟨"/d", [⟨"d", "a", 0, ""⟩], 0, 0⟩)
  else (fun _ => none)

/-- Deletes of "x" fail, all other deletes succeed. -/
def envDelX : String → Bool := fun s => !(s == "x")

/-- A listing of /d holding only the file x. -/
def flDelX : Filelist := .mk "/d" [⟨"f", "x", 0, ""⟩] 0 0 []

theorem c9_first_failure_aborts_witness :
    filelistRec srvAbort 1 2 "/d" = .error .transport ∧
    (envDelX "x" = false ∧ ∃ pre, (deleteRecursive envDelX flDelX).1 = pre ++ ["x"] ∧
      ∀ x ∈ pre, envDelX x = true) :=
  ⟨c9_first_failure_aborts.1 srvAbort 1 1 "/d"
      (.mk "/d" [⟨"d", "a", 0, ""⟩] 0 0 []) [] ⟨"d", "a", 0, ""⟩ [] .transport
      rfl rfl (by simp) rfl,
   c9_first_failure_aborts.2 envDelX flDelX "x" rfl⟩

/-- Claim C10: recursive delete addresses every rr_delete by the
entry's bare Name alone: the issued delete log is always a prefix of
the tree's post-order bare-name sequence, and on success it is exactly
that sequence - never a directory path joined with the name. -/
theorem c10_delete_bare_names (env : String → Bool) (fl : Filelist) :
    (∃ rest, (deleteRecursive env fl).1 ++ rest = postorderNames fl) ∧
    ((deleteRecursive env fl).2 = .ok () →
      (deleteRecursive env fl).1 = postorderNames fl) :=
  ⟨deleteRecursive_isPre env fl, fun h => deleteRecursive_ok h⟩

/-- Every delete succeeds. -/
def envAllOk : String → Bool := fun _ => true

theorem c10_delete_bare_names_witness :
    (deleteRecursive envAllOk gcodesTree).1 = postorderNames gcodesTree :=
  (c10_delete_bare_names envAllOk gcodesTree).2 rfl

end Librfm
